import Mathlib

/-!
# Verification of the scrape core (fetcher.py / parsers.py)

Shallow embedding of the acquisition and extraction pipeline of the
repository.  HTML documents are represented by the data the source actually
reads out of them (element texts, attribute values, row texts per container);
every function below mirrors one Python function of `src/scrape`, keeping its
name where Lean allows.
-/

namespace Scrape

/-! ## Character and string helpers mirroring Python primitives -/

/-- U+200E LEFT-TO-RIGHT MARK, removed by `_clean_text`. -/
def lrm : Char := '\u200E'

/-- U+200F RIGHT-TO-LEFT MARK, removed by `_clean_text`. -/
def rlm : Char := '\u200F'

/-- `[A-Z0-9]` — the character class of the ASIN pattern
`r"/dp/([A-Z0-9]{10})"` (settings.asin_pattern). -/
def isAsinChar (c : Char) : Bool :=
  ('A' ≤ c && c ≤ 'Z') || c.isDigit

/-- Python `str.lower()` (ASCII-adequate for the patterns used). -/
def lowerChars (cs : List Char) : List Char := cs.map Char.toLower

/-- Python `str.lower()` on a `String`. -/
def lowerStr (s : String) : String := ⟨lowerChars s.data⟩

/-- Python substring test, scanning left to right on character lists. -/
def subAt : List Char → List Char → Bool
  | pat, [] => pat.isEmpty
  | pat, c :: cs => pat.isPrefixOf (c :: cs) || subAt pat cs

/-- Python substring test `pat in s`. -/
def containsSub (s pat : String) : Bool := subAt pat.data s.data

/-- Python `str.strip()` on a character list. -/
def stripEnds (cs : List Char) : List Char :=
  ((cs.dropWhile Char.isWhitespace).reverse.dropWhile Char.isWhitespace).reverse

/-- Python `str.strip()`. -/
def trimStr (s : String) : String := ⟨stripEnds s.data⟩

/-- Python `str.split()` (no argument): maximal runs of non-whitespace,
empty pieces dropped.  `acc` holds the current token reversed. -/
def splitWsAux : List Char → List Char → List (List Char)
  | acc, [] => if acc.isEmpty then [] else [acc.reverse]
  | acc, c :: cs =>
    if c.isWhitespace then
      if acc.isEmpty then splitWsAux [] cs else acc.reverse :: splitWsAux [] cs
    else splitWsAux (c :: acc) cs

def splitWs (cs : List Char) : List (List Char) := splitWsAux [] cs

/-- Python `" ".join(tokens)`. -/
def joinSp : List (List Char) → List Char
  | [] => []
  | [t] => t
  | t :: ts => t ++ ' ' :: joinSp ts

/-- Python `str.split(sep)` for a one-character separator: keeps empty
pieces, always returns at least one piece. -/
def splitOnChar (sep : Char) : List Char → List (List Char)
  | [] => [[]]
  | c :: cs =>
    if c = sep then [] :: splitOnChar sep cs
    else
      match splitOnChar sep cs with
      | [] => [[c]]
      | t :: ts => (c :: t) :: ts

/-! ## `_clean_text` (parsers.py 13-17) -/

/-- Drop every U+200E / U+200F, as the two `str.replace` calls do. -/
def removeMarks (cs : List Char) : List Char :=
  cs.filter (fun c => !(c = lrm || c = rlm))

/-- The total part of `_clean_text`:
`" ".join(text.replace(lrm,"").replace(rlm,"").split()).strip()`. -/
def cleanChars (cs : List Char) : List Char :=
  stripEnds (joinSp (splitWs (removeMarks cs)))

def cleanRun (s : String) : String := ⟨cleanChars s.data⟩

/-- `_clean_text` (parsers.py 13-17): a falsy (empty) input yields `None`,
otherwise the normalised string (which may itself be empty). -/
def cleanText (s : String) : Option String :=
  if s = "" then none else some (cleanRun s)

/-! ## Label stripping (the anchored `re.sub` calls of parsers.py) -/

/-- Alternatives of `r"^(Product Dimensions|Item Dimensions|Dimensions|Size|Item Display Dimensions)\s*[:\s]*"`,
in the regex's order. -/
def dimLabels : List String :=
  ["Product Dimensions", "Item Dimensions", "Dimensions", "Size",
   "Item Display Dimensions"]

/-- Alternatives of `r"^(Item Weight|Product Weight|Package Weight|Weight)\s*[:\s]*"`. -/
def weightLabels : List String :=
  ["Item Weight", "Product Weight", "Package Weight", "Weight"]

/-- The weight-unit tokens checked inside the semicolon loop (parsers.py 112). -/
def weightUnits : List String := ["ounce", "pound", "kg", "g", "lb", "oz"]

/-- Trailing part `\s*[:\s]*` of the label patterns: both pieces being greedy,
the match consumes the maximal run of whitespace/colon characters. -/
def dropLabelTail (cs : List Char) : List Char :=
  cs.dropWhile (fun c => c = ':' || c.isWhitespace)

/-- `re.sub(r"^(L1|L2|...)\s*[:\s]*", "", text, flags=IGNORECASE)`:
the first alternative (in listed order) that is a case-insensitive prefix is
removed together with the following whitespace/colon run; otherwise the text
is unchanged. -/
def stripLabel (labels : List String) (s : String) : String :=
  match labels.find? (fun l => (lowerChars l.data).isPrefixOf (lowerChars s.data)) with
  | some l => ⟨dropLabelTail (s.data.drop l.data.length)⟩
  | none => s

/-! ## `extract_dimensions_and_weight` (parsers.py 81-126) -/

structure DimsWeight where
  dims : Option String
  weight : Option String
deriving DecidableEq

/-- Python truthiness of the `weight` variable: `None` and `""` are falsy. -/
def falsyOpt : Option String → Bool
  | none => true
  | some s => s = ""

/-- `any(u in p.lower() for u in [...])` (parsers.py 110-113). -/
def hasWeightUnit (p : String) : Bool :=
  weightUnits.any (fun u => containsSub (lowerStr p) u)

/-- The dimension branch of the row loop (parsers.py 99-115): on a row whose
lowercase text contains "dimension" or "size", strip the label; with a
semicolon, the trimmed first clause becomes `dims` and the last
unit-bearing later clause (if any) overwrites `weight`; without one the
whole stripped text becomes `dims`.  `dims` is assigned unconditionally. -/
def dimBranch (st : DimsWeight) (text : String) : DimsWeight :=
  if containsSub (lowerStr text) "dimension" || containsSub (lowerStr text) "size" then
    let val := stripLabel dimLabels text
    if containsSub val ";" then
      let parts := (splitOnChar ';' val.data).map (fun cs => (⟨cs⟩ : String))
      let v := trimStr (parts.headD "")
      let w := parts.tail.foldl
        (fun w p => if hasWeightUnit p then some (trimStr p) else w) st.weight
      { dims := some v, weight := w }
    else { st with dims := some val }
  else st

/-- The loop body for one row with truthy cleaned text `text`
(parsers.py 96-124): the dimension branch, then the weight branch, which
fires only when the lowercase text contains "weight" and the current weight
is still falsy. -/
def processRowText (st : DimsWeight) (text : String) : DimsWeight :=
  let st1 := dimBranch st text
  if containsSub (lowerStr text) "weight" && falsyOpt st1.weight then
    { st1 with weight := some (stripLabel weightLabels text) }
  else st1

/-- The body of the row loop (parsers.py 91-124) for one row, threading the
mutable `dims`/`weight` pair.  `raw` is the row's `get_text()`; a falsy
cleaned text `continue`s. -/
def processRow (st : DimsWeight) (raw : String) : DimsWeight :=
  match cleanText raw with
  | none => st
  | some text => processRowText st text

/-- `extract_dimensions_and_weight`: the containers selected on line 82-84 are
given as the per-container lists of row texts (`tr, li, .a-list-item`
elements in document order). -/
def extract_dimensions_and_weight (tables : List (List String)) : DimsWeight :=
  tables.foldl (fun st rows => rows.foldl processRow st) ⟨none, none⟩

/-! ## `extract_asin` (parsers.py 25-31) and the ASIN regex -/

/-- The literal `/dp/` that `settings.asin_pattern` anchors on. -/
def dpMarker : List Char := ['/', 'd', 'p', '/']

/-- One attempt of `re.search(r"/dp/([A-Z0-9]{10})", url)` at the current
position: match `/dp/`, then exactly ten `[A-Z0-9]` characters. -/
def tryAsinAt (cs : List Char) : Option (List Char) :=
  if dpMarker.isPrefixOf cs then
    if ((cs.drop 4).take 10).length = 10 && ((cs.drop 4).take 10).all isAsinChar then
      some ((cs.drop 4).take 10)
    else none
  else none

/-- `re.search` semantics: leftmost position whose attempt succeeds. -/
def findAsinChars : List Char → Option (List Char)
  | [] => none
  | c :: cs =>
    match tryAsinAt (c :: cs) with
    | some a => some a
    | none => findAsinChars cs

/-- `re.search(settings.asin_pattern, url)`, returning group 1. -/
def findAsin (url : String) : Option String :=
  (findAsinChars url.data).map (fun cs => ⟨cs⟩)

/-- `extract_asin(soup, url)`: the URL pattern wins; only when it does not
match is the `input[name="ASIN"]` value attribute consulted.  `asinInput` is
that attribute (`none` when the element is absent or has no `value`). -/
def extract_asin (asinInput : Option String) (url : String) : Option String :=
  match findAsin url with
  | some a => some a
  | none => asinInput

/-! ## `extract_search_results` (parsers.py 149-161) and
`get_top_products` (fetcher.py 169-180) -/

/-- One `div[data-component-type="s-search-result"]` container, reduced to
what the code reads from it: the `href` attribute of its first
`a.a-link-normal` anchor (`none` when there is no anchor or no `href`). -/
structure SearchElement where
  href : Option String
deriving DecidableEq

def amazonOrigin : String := "https://www.amazon.com"

/-- parsers.py 158: relative hrefs are resolved against the site origin. -/
def resolveHref (href : String) : String :=
  if href.startsWith "/" then amazonOrigin ++ href else href

/-- `extract_search_results(html)`: iterate the result containers in document
order, hard-capped by `elements[:10]`; containers whose href is missing or
falsy are skipped.  Note the function takes no limit parameter. -/
def extract_search_results (elements : List SearchElement) : List String :=
  (elements.take 10).filterMap (fun e =>
    match e.href with
    | some h => if h = "" then none else some (resolveHref h)
    | none => none)

/-- `get_top_products` (fetcher.py 169-180).  `fetched` is the outcome of
`_fetch_page_html` for the search URL (`none` on failure, else the parsed
result containers).  On success the code executes
`extract_search_results(html, n=n)`; since `extract_search_results` accepts
only `html`, this raises `TypeError`, which the surrounding
`except Exception` swallows, so the function returns `[]`. -/
def get_top_products (fetched : Option (List SearchElement)) (n : Nat) : List String :=
  match fetched, n with
  | none, _ => []
  | some _, _ => []

/-! ## `_fetch_page_html` (fetcher.py 87-167) -/

/-- What the code reads from a Zyte API response: the HTTP status and the
`browserHtml` field of the JSON body (`none` when absent). -/
structure ZyteResponse where
  status : Nat
  browserHtml : Option String
deriving DecidableEq

/-- The remote part of `_fetch_page_html` (fetcher.py 122-167).  `resp k` is
the upstream response to the attempt with `retry_count = k`; the returned
list records the `asyncio.sleep` durations (in seconds,
`base ** retry_count * mult`) in order.  A 520 response retries while
`retry_count < maxRetries`; any other non-200 response, and a 200 response
with falsy `browserHtml`, returns `None` at once. -/
def fetch_page_html (base mult : Nat) (resp : Nat → ZyteResponse)
    (maxRetries : Nat) (retryCount : Nat) : Option String × List Nat :=
  let r := resp retryCount
  if r.status = 520 then
    if h : retryCount < maxRetries then
      let w := base ^ retryCount * mult
      let rest := fetch_page_html base mult resp maxRetries (retryCount + 1)
      (rest.1, w :: rest.2)
    else (none, [])
  else if r.status ≠ 200 then (none, [])
  else
    match r.browserHtml with
    | none => (none, [])
    | some h => if h = "" then (none, []) else (some h, [])
termination_by maxRetries - retryCount
decreasing_by omega

/-! ## Local snapshots (fetcher.py 43-96) and the orchestrator filter
(fetcher.py 212-228) -/

def html_snapshots_dir : String := "html_snapshots"

/-- `_get_filename_from_url` (fetcher.py 43-53): search pages are keyed by
the `k=` query, product pages by the ASIN extracted with
`settings.asin_pattern`; anything else has no filename. -/
def get_filename_from_url (url : String) : Option String :=
  if containsSub url "/s?k=" then
    let query := (((url.splitOn "/s?k=").getD 1 "").splitOn "&").headD ""
    some (html_snapshots_dir ++ "/search_" ++ query ++ ".html")
  else if containsSub url "/dp/" then
    (findAsin url).map (fun a => html_snapshots_dir ++ "/product_" ++ a ++ ".html")
  else none

/-- `_load_local_html` (fetcher.py 68-85).  `fs` models the snapshot store:
`fs f` is the file's content when it exists, `none` otherwise (a missing
file, like any read error, is caught and logged, never raised). -/
def load_local_html (fs : String → Option String) (url : String) : Option String :=
  match get_filename_from_url url with
  | none => none
  | some f => fs f

/-- The local-mode prologue of `_fetch_page_html` (fetcher.py 92-96): in
local mode a truthy local snapshot is returned immediately; otherwise the
code logs a warning and falls through to the remote fetch, whose outcome
(content and sleeps) is `remote`. -/
def fetch_with_local (useLocal : Bool) (fs : String → Option String)
    (url : String) (remote : Option String × List Nat) : Option String × List Nat :=
  if useLocal then
    match load_local_html fs url with
    | some h => if h = "" then remote else (some h, [])
    | none => remote
  else remote

/-- The local-mode candidate filter of `scrape_products` (fetcher.py
212-228): keep exactly those candidate URLs whose ASIN matches and whose
detail snapshot file exists; `fileExists` models `Path.exists`. -/
def filter_local_candidates (fileExists : String → Bool) (cands : List String) : List String :=
  cands.filter (fun u =>
    match findAsin u with
    | some a => fileExists (html_snapshots_dir ++ "/product_" ++ a ++ ".html")
    | none => false)

/-! ## `get_product_details` (fetcher.py 182-197) and
`scrape_products` (fetcher.py 200-250) -/

/-- The `Product` pydantic model (bot/schemas.py 22-39) as built by
`extract_product_details`. -/
structure Product where
  asin : Option String
  title : Option String
  brand : Option String
  price : Option String
  rating : Option String
  review_count : Option String
  bullet_features : List String
  breadcrumbs : List String
  dimensions : Option String
  weight : Option String
  url : String
  image_url : Option String
deriving DecidableEq

/-- `get_product_details` (fetcher.py 182-197): a falsy fetch result yields
`None`; a parser exception (`Except.error`) is caught and yields `None`. -/
def get_product_details (fetch : String → Option String)
    (parse : String → String → Except String Product) (url : String) : Option Product :=
  match fetch url with
  | none => none
  | some html =>
    if html = "" then none
    else
      match parse html url with
      | Except.ok p => some p
      | Except.error _ => none

/-- The detail phase of `scrape_products` (fetcher.py 231-240): one task per
candidate, launched in list order; `asyncio.gather` returns the results in
task order, and `None` results are dropped. -/
def scrape_core (fetch : String → Option String)
    (parse : String → String → Except String Product) (cands : List String) : List Product :=
  ((cands.map (fun u => get_product_details fetch parse u)).filterMap id)

/-! ## `extract_product_details` (parsers.py 129-146) and the per-field
extractors (parsers.py 20-78) -/

/-- Python `str.replace(pat, repl)` on character lists: scan left to right,
replacing non-overlapping occurrences.  `pat` is non-empty at every call
site. -/
def replaceAllChars (pat repl : List Char) : List Char → List Char
  | [] => []
  | c :: cs =>
    if pat.isPrefixOf (c :: cs) && !pat.isEmpty then
      repl ++ replaceAllChars pat repl (cs.drop (pat.length - 1))
    else c :: replaceAllChars pat repl cs
termination_by cs => cs.length
decreasing_by
  all_goals simp [List.length_drop]
  omega

/-- A rendered detail page, reduced to what parsers.py reads from it.  Each
`Option String` is the `get_text()` of the selector's element when the
element is present (the text may be empty); attribute fields hold the raw
attribute value. -/
structure DetailPage where
  titleText : Option String
  asinInput : Option String
  priceTexts : List (Option String)
  ratingText1 : Option String
  ratingText2 : Option String
  reviewText : Option String
  bulletTexts : List String
  bylineText : Option String
  imageSrc : Option String
  breadcrumbTexts : List String
  dimsTables : List (List String)

/-- `extract_title` (parsers.py 20-22). -/
def extract_title (t : Option String) : Option String := t.bind cleanText

/-- `extract_price` (parsers.py 34-41): the selectors are tried in order; a
present element with truthy text short-circuits, a present element with
falsy text falls through to the next selector. -/
def extract_price : List (Option String) → Option String
  | [] => none
  | none :: rest => extract_price rest
  | some t :: rest => if t = "" then extract_price rest else some (cleanRun t)

/-- `extract_rating` (parsers.py 44-48): element-presence fallback, then
clean the chosen element's text. -/
def extract_rating (r1 r2 : Option String) : Option String :=
  (match r1 with
   | some t => some t
   | none => r2).bind cleanText

/-- `extract_review_count` (parsers.py 51-53). -/
def extract_review_count (t : Option String) : Option String := t.bind cleanText

/-- `extract_bullets` (parsers.py 56-58): keep elements whose raw text has a
non-whitespace character, and clean each kept text. -/
def extract_bullets (ts : List String) : List String :=
  (ts.filter (fun t => !(trimStr t == ""))).map cleanRun

/-- `extract_breadcrumbs` (parsers.py 76-78): same shape as the bullets. -/
def extract_breadcrumbs (ts : List String) : List String :=
  (ts.filter (fun t => !(trimStr t == ""))).map cleanRun

/-- `re.sub(r"^Brand:\s*", "", text, flags=IGNORECASE)`. -/
def stripBrandLabel (s : String) : String :=
  if (lowerChars "Brand:".data).isPrefixOf (lowerChars s.data) then
    ⟨(s.data.drop 6).dropWhile Char.isWhitespace⟩
  else s

/-- `extract_brand` (parsers.py 61-68).  When the byline element's text is
falsy, `_clean_text` returns `None` and the following `re.sub` raises
`TypeError`; the error propagates out of the extractor (it is only caught in
`get_product_details`). -/
def extract_brand (b : Option String) : Except String (Option String) :=
  match b with
  | none => Except.ok none
  | some raw =>
    match cleanText raw with
    | none => Except.error "TypeError: expected string or bytes-like object"
    | some t =>
      Except.ok (some ⟨stripEnds (replaceAllChars " Store".data []
        (replaceAllChars "Visit the ".data [] (stripBrandLabel t).data))⟩)

/-- `extract_image` (parsers.py 71-73): the raw `src` attribute. -/
def extract_image (src : Option String) : Option String := src

/-- `extract_product_details` (parsers.py 129-146): assemble the record; a
`TypeError` from `extract_brand` propagates (the caller catches it and drops
the record). -/
def extract_product_details (page : DetailPage) (url : String) : Except String Product :=
  match extract_brand page.bylineText with
  | Except.error e => Except.error e
  | Except.ok brand =>
    let dw := extract_dimensions_and_weight page.dimsTables
    Except.ok
      { url := url
        title := extract_title page.titleText
        asin := extract_asin page.asinInput url
        price := extract_price page.priceTexts
        rating := extract_rating page.ratingText1 page.ratingText2
        review_count := extract_review_count page.reviewText
        bullet_features := extract_bullets page.bulletTexts
        brand := brand
        image_url := extract_image page.imageSrc
        breadcrumbs := extract_breadcrumbs page.breadcrumbTexts
        dimensions := dw.dims
        weight := dw.weight }

/-! ## Characterizations used by the claim statements -/

/-- A row is a dimension candidate (parsers.py 99). -/
def isDimRowB (text : String) : Bool :=
  containsSub (lowerStr text) "dimension" || containsSub (lowerStr text) "size"

/-- The dimensions value a dimension-candidate row contributes
(parsers.py 100-115): strip the label; if a semicolon is present, the first
clause, trimmed. -/
def dimRowVal (text : String) : String :=
  let val := stripLabel dimLabels text
  if containsSub val ";" then
    trimStr (((splitOnChar ';' val.data).map (fun cs => (⟨cs⟩ : String))).headD "")
  else val

/-- The weight embedded in a dimension row's semicolon clauses, if any: the
last clause after the first semicolon that mentions a weight unit, trimmed
(parsers.py 106-114). -/
def embeddedWeight (text : String) : Option String :=
  let val := stripLabel dimLabels text
  if containsSub val ";" then
    (((splitOnChar ';' val.data).map (fun cs => (⟨cs⟩ : String))).tail).foldl
      (fun w p => if hasWeightUnit p then some (trimStr p) else w) none
  else none

/-- No U+200E / U+200F anywhere in the string. -/
def noMarksB (s : String) : Bool := s.data.all (fun c => !(c = lrm || c = rlm))

/-- At most one of two adjacent characters is whitespace. -/
def wsPairOk (a b : Char) : Bool := !(a.isWhitespace && b.isWhitespace)

/-- No two consecutive whitespace characters. -/
def noWsRun : List Char → Bool
  | a :: b :: rest => wsPairOk a b && noWsRun (b :: rest)
  | _ => true

/-- The first character, when present, is not whitespace. -/
def headNotWs : List Char → Bool
  | [] => true
  | c :: _ => !c.isWhitespace

/-- The last character, when present, is not whitespace. -/
def lastNotWs (cs : List Char) : Bool :=
  match cs.getLast? with
  | none => true
  | some c => !c.isWhitespace

/-- A normalised text value: mark-free, no internal whitespace runs, no
leading or trailing whitespace (the string may be empty). -/
def cleanedStr (s : String) : Prop :=
  noMarksB s = true ∧ noWsRun s.data = true ∧ headNotWs s.data = true ∧
    lastNotWs s.data = true

/-- Field-level version of `cleanedStr` for optional fields. -/
def cleanedFieldOk (o : Option String) : Prop := ∀ s, o = some s → cleanedStr s

/-- C10's per-field statement as written: absent, or a non-empty normalised
string. -/
def claimTextOk (o : Option String) : Prop :=
  o = none ∨ ∃ s, o = some s ∧ s ≠ "" ∧ cleanedStr s

/-- Claim C10 as stated, over the text fields of every record
`extract_product_details` produces. -/
def claimC10 : Prop :=
  ∀ (page : DetailPage) (url : String) (r : Product),
    extract_product_details page url = Except.ok r →
    claimTextOk r.title ∧ claimTextOk r.asin ∧ claimTextOk r.brand ∧
    claimTextOk r.price ∧ claimTextOk r.rating ∧ claimTextOk r.review_count ∧
    claimTextOk r.dimensions ∧ claimTextOk r.weight ∧
    (∀ s ∈ r.bullet_features, s ≠ "" ∧ cleanedStr s) ∧
    (∀ s ∈ r.breadcrumbs, s ≠ "" ∧ cleanedStr s)

/-- A detail page whose title element holds only whitespace and whose ASIN
form input holds an un-normalised value; the URL carries no `/dp/` code. -/
def page0 : DetailPage :=
  { titleText := some " "
    asinInput := some " X\u200E "
    priceTexts := []
    ratingText1 := none
    ratingText2 := none
    reviewText := none
    bulletTexts := []
    bylineText := none
    imageSrc := none
    breadcrumbTexts := []
    dimsTables := [] }

def url0 : String := "https://example.com/item"

/-- The record `extract_product_details` produces for `page0` at `url0`. -/
def prod0 : Product :=
  { asin := some " X\u200E "
    title := some ""
    brand := none
    price := none
    rating := none
    review_count := none
    bullet_features := []
    breadcrumbs := []
    dimensions := none
    weight := none
    url := url0
    image_url := none }

/-- A detail page whose title text needs all three normalization steps. -/
def page1 : DetailPage :=
  { titleText := some " a\u200E  b "
    asinInput := none
    priceTexts := []
    ratingText1 := none
    ratingText2 := none
    reviewText := none
    bulletTexts := []
    bylineText := none
    imageSrc := none
    breadcrumbTexts := []
    dimsTables := [] }

/-- The record `extract_product_details` produces for `page1` at `url0`. -/
def prod1 : Product :=
  { asin := none
    title := some "a b"
    brand := none
    price := none
    rating := none
    review_count := none
    bullet_features := []
    breadcrumbs := []
    dimensions := none
    weight := none
    url := url0
    image_url := none }

/-- A record with every optional field absent, used to instantiate the
orchestrator theorems. -/
def emptyProduct : Product :=
  { asin := none
    title := none
    brand := none
    price := none
    rating := none
    review_count := none
    bullet_features := []
    breadcrumbs := []
    dimensions := none
    weight := none
    url := ""
    image_url := none }

/-- A distinct record per URL, for order-sensitive instances. -/
def mkProd (u : String) : Product := { emptyProduct with url := u }

/-! ## Helper lemmas -/

/-- Once the semicolon-clause fold has produced a weight starting from
`none`, the initial accumulator is irrelevant. -/
theorem weight_foldl_of_none (l : List String) (v : String)
    (h : l.foldl (fun w p => if hasWeightUnit p then some (trimStr p) else w) none = some v) :
    ∀ w0, l.foldl (fun w p => if hasWeightUnit p then some (trimStr p) else w) w0 = some v := by
  revert h
  induction l with
  | nil => intro h; simp at h
  | cons p l ih =>
    intro h w0
    simp only [List.foldl_cons] at h ⊢
    by_cases hp : hasWeightUnit p
    · simpa [hp] using h
    · simp only [hp, if_neg, Bool.false_eq_true, if_false] at h ⊢
      exact ih h w0

/-! ## Claim theorems -/

/-- C5 (confirmed): on the row "Product Dimensions: 10 x 5 x 2 inches ;
2.2 pounds" the disambiguator strips the label, splits at the semicolon,
recognises the weight unit in the second clause, and yields
dims = "10 x 5 x 2 inches", weight = "2.2 pounds". -/
theorem semicolon_clause_split :
    extract_dimensions_and_weight
        [["Product Dimensions: 10 x 5 x 2 inches ; 2.2 pounds"]] =
      ⟨some "10 x 5 x 2 inches", some "2.2 pounds"⟩ := by
  decide

/-- C1 (code bug): `extract_search_results` accepts no limit parameter and
hard-caps the scan at 10 containers, so with 12 result containers and a
requested limit of 5 it yields 10 URLs, and `get_top_products` — which
calls it as `extract_search_results(html, n=n)` — always returns `[]`
because the call raises `TypeError` into its `except` block. -/
theorem search_limit_mismatch :
    (extract_search_results (List.replicate 12 ⟨some "/dp/B000000001/ref"⟩)).length = 10 ∧
    get_top_products (some (List.replicate 12 ⟨some "/dp/B000000001/ref"⟩)) 5 = [] ∧
    get_top_products none 5 = [] := by
  exact ⟨by decide, rfl, rfl⟩

/-- C2 (counterexample): a later dimension-candidate row does change an
already-set dimensions value — row "Size: Large" overwrites the value
"10 x 5 x 2 inches" set by the earlier row. -/
theorem dims_overwritten_by_later_row :
    (extract_dimensions_and_weight
        [["Product Dimensions: 10 x 5 x 2 inches"]]).dims = some "10 x 5 x 2 inches" ∧
    (extract_dimensions_and_weight
        [["Product Dimensions: 10 x 5 x 2 inches", "Size: Large"]]).dims = some "Large" := by
  exact ⟨by decide, by decide⟩

/-- C2 (amended): every dimension-candidate row overwrites the dimensions
field with its own value (last writer wins, regardless of any earlier
value); non-candidate rows leave it unchanged; and a weight embedded in a
dimension row's semicolon clause is assigned at the moment it occurs,
overwriting any current weight. -/
theorem processRow_dims_last_writer (st : DimsWeight) (raw text : String)
    (h : cleanText raw = some text) :
    (isDimRowB text = true → (processRow st raw).dims = some (dimRowVal text)) ∧
    (isDimRowB text = false → (processRow st raw).dims = st.dims) ∧
    (∀ w, isDimRowB text = true → embeddedWeight text = some w → w ≠ "" →
      (processRow st raw).weight = some w) := by
  have hpr : processRow st raw = processRowText st text := by
    simp [processRow, h]
  simp only [isDimRowB] at *
  refine ⟨?_, ?_, ?_⟩
  · intro hdim
    rw [hpr]
    unfold processRowText
    have h1 : (dimBranch st text).dims = some (dimRowVal text) := by
      unfold dimBranch dimRowVal
      rw [if_pos hdim]
      by_cases hsc : containsSub (stripLabel dimLabels text) ";" = true
      · simp [hsc]
      · simp [hsc]
    simp only [apply_ite DimsWeight.dims]
    split <;> simpa using h1
  · intro hdim
    rw [hpr]
    unfold processRowText
    have h1 : dimBranch st text = st := by
      unfold dimBranch
      rw [if_neg]
      simp [hdim]
    simp only [apply_ite DimsWeight.dims]
    split <;> simp [h1]
  · intro w hdim hw hne
    rw [hpr]
    unfold processRowText
    have h1 : (dimBranch st text).weight = some w := by
      unfold dimBranch
      rw [if_pos hdim]
      unfold embeddedWeight at hw
      by_cases hsc : containsSub (stripLabel dimLabels text) ";" = true
      · simp only [hsc, if_pos] at hw ⊢
        simpa using weight_foldl_of_none _ w (by simpa using hw) st.weight
      · simp [hsc] at hw
    have h2 : falsyOpt (some w) = false := by simp [falsyOpt, hne]
    simp [h1, h2]

/-- C2 (witness): a concrete later "Size" row overwrites dims with "Large". -/
theorem processRow_dims_last_writer_witness :
    (processRow ⟨some "1 x 1 x 1 inches", none⟩ "Size: Large").dims = some "Large" := by
  have h := processRow_dims_last_writer ⟨some "1 x 1 x 1 inches", none⟩
    "Size: Large" "Size: Large" (by decide)
  exact (h.1 (by decide)).trans (by decide)

/-- C6 (confirmed): a dimension row without semicolon clause and a later
separate weight row populate both fields; a weight-candidate row assigns
the weight only when no (truthy) weight is set yet, and does assign it when
the weight is still unset. -/
theorem separate_weight_row_first_match :
    extract_dimensions_and_weight [["Dimensions: 5x5x5 cm", "Item Weight: 500 g"]] =
        ⟨some "5x5x5 cm", some "500 g"⟩ ∧
    (∀ (st : DimsWeight) (raw text w : String), cleanText raw = some text →
        isDimRowB text = false → st.weight = some w → w ≠ "" →
        (processRow st raw).weight = some w) ∧
    (∀ (st : DimsWeight) (raw text : String), cleanText raw = some text →
        isDimRowB text = false → containsSub (lowerStr text) "weight" = true →
        falsyOpt st.weight = true →
        (processRow st raw).weight = some (stripLabel weightLabels text)) := by
  refine ⟨by decide, ?_, ?_⟩
  · intro st raw text w h hdim hst hne
    have hpr : processRow st raw = processRowText st text := by simp [processRow, h]
    have h1 : dimBranch st text = st := by
      unfold dimBranch
      rw [if_neg]
      simp only [isDimRowB] at hdim
      simp [hdim]
    have h2 : falsyOpt (some w) = false := by simp [falsyOpt, hne]
    rw [hpr]
    unfold processRowText
    simp [h1, h2, hst]
  · intro st raw text h hdim hwt hfal
    have hpr : processRow st raw = processRowText st text := by simp [processRow, h]
    have h1 : dimBranch st text = st := by
      unfold dimBranch
      rw [if_neg]
      simp only [isDimRowB] at hdim
      simp [hdim]
    rw [hpr]
    unfold processRowText
    simp [h1, hwt, hfal]

/-- C6 (witness): concrete instances of the general clauses — an existing
truthy weight survives a later weight row, and an unset weight is assigned. -/
theorem separate_weight_row_first_match_witness :
    (processRow ⟨none, some "2.2 pounds"⟩ "Item Weight: 500 g").weight = some "2.2 pounds" ∧
    (processRow ⟨none, none⟩ "Item Weight: 500 g").weight = some "500 g" := by
  have h := separate_weight_row_first_match
  constructor
  · exact h.2.1 ⟨none, some "2.2 pounds"⟩ "Item Weight: 500 g" "Item Weight: 500 g"
      "2.2 pounds" (by decide) (by decide) rfl (by decide)
  · exact (h.2.2 ⟨none, none⟩ "Item Weight: 500 g" "Item Weight: 500 g"
      (by decide) (by decide) (by decide) (by decide)).trans (by decide)

/-- Against an upstream that answers 520 to every attempt, the fetch from
`retry_count = rc` fails and sleeps `base ^ k * mult` for every
`k ∈ [rc, maxRetries)`. -/
theorem fetch_all_520 (base mult : Nat) (resp : Nat → ZyteResponse)
    (h : ∀ k, (resp k).status = 520) (mr : Nat) :
    ∀ d rc, mr - rc = d →
      fetch_page_html base mult resp mr rc =
        (none, (List.range' rc d).map (fun k => base ^ k * mult)) := by
  intro d
  induction d with
  | zero =>
    intro rc hrc
    have hlt : ¬ rc < mr := by omega
    unfold fetch_page_html
    simp [h rc, hlt]
  | succ d ih =>
    intro rc hrc
    have hlt : rc < mr := by omega
    unfold fetch_page_html
    simp only [h rc, if_pos, dif_pos hlt, ite_true]
    rw [ih (rc + 1) (by omega)]
    simp [List.range'_succ]

/-- C3 (confirmed): a 520 response is retried while `retry_count <
max_retries`, sleeping `base ^ retry_count * multiplier` before each retry —
exactly `max_retries` retries in total — after which the fetch returns no
content; any other non-200 status returns no content immediately, with zero
retries and zero sleeps. -/
theorem fetch_retries_on_520_only (base mult mr : Nat) (resp resp2 : Nat → ZyteResponse)
    (h520 : ∀ k, (resp k).status = 520)
    (hother : (resp2 0).status ≠ 520) (hnot200 : (resp2 0).status ≠ 200) :
    fetch_page_html base mult resp mr 0 =
        (none, (List.range mr).map (fun k => base ^ k * mult)) ∧
    fetch_page_html base mult resp2 mr 0 = (none, []) := by
  constructor
  · rw [List.range_eq_range']
    exact fetch_all_520 base mult resp h520 mr mr 0 (by omega)
  · unfold fetch_page_html
    simp [hother, hnot200]

/-- C3 (witness): with base 2, multiplier 2, `max_retries` 3 an all-520
upstream sleeps 2, 4 and 8 seconds then fails; a 503 fails with no sleep. -/
theorem fetch_retries_on_520_only_witness :
    fetch_page_html 2 2 (fun _ => ⟨520, none⟩) 3 0 = (none, [2, 4, 8]) ∧
    fetch_page_html 2 2 (fun _ => ⟨503, none⟩) 3 0 = (none, []) := by
  have h := fetch_retries_on_520_only 2 2 3 (fun _ => ⟨520, none⟩)
    (fun _ => ⟨503, none⟩) (fun _ => rfl) (by decide) (by decide)
  exact ⟨h.1.trans (by decide), h.2⟩

/-- The detail phase is the per-candidate outcome map restricted to
successes. -/
theorem scrape_core_eq (fetch : String → Option String)
    (parse : String → String → Except String Product) (l : List String) :
    scrape_core fetch parse l = l.filterMap (get_product_details fetch parse) := by
  simp [scrape_core, List.filterMap_map]

/-- Dropping a candidate whose outcome is `none` from the list does not
change the extracted records. -/
theorem filterMap_drop_failing (g : String → Option Product) (u : String)
    (hu : g u = none) :
    ∀ l : List String, l.filterMap g = (l.filter (fun v => v != u)).filterMap g := by
  intro l
  induction l with
  | nil => rfl
  | cons c cs ih =>
    by_cases hc : c = u
    · subst hc
      simp [List.filter_cons, hu, ih]
    · simp [List.filter_cons, bne_iff_ne, hc, List.filterMap_cons, ih]

/-- C7 (confirmed): a failing detail operation (fetch or parse) yields no
record for its URL and does not affect sibling candidates — the output over
the full candidate list equals the output with the failing URL removed —
and every returned record comes from some successful candidate; the
orchestrator is a total function of the per-URL outcomes, so it never
raises because a subset failed. -/
theorem scrape_products_partial_failures (fetch : String → Option String)
    (parse : String → String → Except String Product) (cands : List String) (u : String)
    (hu : get_product_details fetch parse u = none) :
    scrape_core fetch parse cands =
        scrape_core fetch parse (cands.filter (fun v => v != u)) ∧
    ∀ p ∈ scrape_core fetch parse cands,
      ∃ v ∈ cands, get_product_details fetch parse v = some p := by
  constructor
  · rw [scrape_core_eq, scrape_core_eq]
    exact filterMap_drop_failing _ u hu cands
  · intro p hp
    rw [scrape_core_eq] at hp
    exact List.mem_filterMap.mp hp

/-- C7 (witness): with the fetch failing on "u2" only, the three-candidate
run equals the run over the two healthy candidates. -/
theorem scrape_products_partial_failures_witness :
    scrape_core (fun v => if v = "u2" then none else some "page")
        (fun _ v => Except.ok (mkProd v)) ["u1", "u2", "u3"] =
      scrape_core (fun v => if v = "u2" then none else some "page")
        (fun _ v => Except.ok (mkProd v)) ["u1", "u3"] := by
  have h := scrape_products_partial_failures
    (fun v => if v = "u2" then none else some "page")
    (fun _ v => Except.ok (mkProd v)) ["u1", "u2", "u3"] "u2" (by decide)
  exact h.1.trans (by decide)

/-- C8 (confirmed): the records returned are the candidate sequence
restricted to successes, in the candidates' original relative order
(`asyncio.gather` returns results in task-creation order); in particular
with three candidates of which only the second fails, the output is the
records of the first and third, in that order. -/
theorem scrape_output_order (fetch : String → Option String)
    (parse : String → String → Except String Product) (c1 c2 c3 : String)
    (p1 p3 : Product)
    (h1 : get_product_details fetch parse c1 = some p1)
    (h2 : get_product_details fetch parse c2 = none)
    (h3 : get_product_details fetch parse c3 = some p3) :
    scrape_core fetch parse [c1, c2, c3] = [p1, p3] ∧
    ∀ cands : List String,
      scrape_core fetch parse cands =
        cands.filterMap (get_product_details fetch parse) := by
  constructor
  · rw [scrape_core_eq]
    simp [List.filterMap_cons, h1, h2, h3]
  · intro cands
    exact scrape_core_eq fetch parse cands

/-- C8 (witness): candidates "a", "b", "c" with "b" failing produce the
records of "a" and "c" in that order. -/
theorem scrape_output_order_witness :
    scrape_core (fun v => if v = "b" then none else some "page")
        (fun _ v => Except.ok (mkProd v)) ["a", "b", "c"] =
      [mkProd "a", mkProd "c"] := by
  exact (scrape_output_order (fun v => if v = "b" then none else some "page")
    (fun _ v => Except.ok (mkProd v)) "a" "b" "c" (mkProd "a") (mkProd "c")
    (by decide) (by decide) (by decide)).1

/-- C9 (confirmed): in local-snapshot mode a missing snapshot file never
raises — `_load_local_html` returns `None` and `_fetch_page_html` falls
through to the remote path — and the orchestrator keeps exactly the
candidates whose detail snapshot exists (a sublist, preserving order),
dropping the others. -/
theorem local_mode_missing_snapshot (fs : String → Option String) (fe : String → Bool)
    (url f : String) (remote : Option String × List Nat)
    (hf : get_filename_from_url url = some f) (hmiss : fs f = none) :
    load_local_html fs url = none ∧
    fetch_with_local true fs url remote = remote ∧
    (∀ cands : List String, (filter_local_candidates fe cands).Sublist cands) ∧
    (∀ (cands : List String) (u a : String), u ∈ cands → findAsin u = some a →
        fe (html_snapshots_dir ++ "/product_" ++ a ++ ".html") = false →
        u ∉ filter_local_candidates fe cands) ∧
    (∀ (cands : List String) (u a : String), u ∈ cands → findAsin u = some a →
        fe (html_snapshots_dir ++ "/product_" ++ a ++ ".html") = true →
        u ∈ filter_local_candidates fe cands) := by
  have hl : load_local_html fs url = none := by
    simp [load_local_html, hf, hmiss]
  refine ⟨hl, ?_, ?_, ?_, ?_⟩
  · simp [fetch_with_local, hl]
  · intro cands
    exact List.filter_sublist cands
  · intro cands u a hu ha hfe hmem
    rw [filter_local_candidates, List.mem_filter] at hmem
    have h2 := hmem.2
    rw [ha] at h2
    simp [hfe] at h2
  · intro cands u a hu ha hfe
    rw [filter_local_candidates, List.mem_filter]
    refine ⟨hu, ?_⟩
    rw [ha]
    exact hfe

/-- C9 (witness): an empty snapshot store — the local load yields `None`,
the remote outcome is returned unchanged, and a candidate with no snapshot
is filtered out. -/
theorem local_mode_missing_snapshot_witness :
    load_local_html (fun _ => none) "https://www.amazon.com/dp/B000000001" = none ∧
    fetch_with_local true (fun _ => none) "https://www.amazon.com/dp/B000000001"
        (none, [7]) = (none, [7]) ∧
    "https://www.amazon.com/dp/B000000001" ∉
      filter_local_candidates (fun _ => false)
        ["https://www.amazon.com/dp/B000000001"] := by
  have h := local_mode_missing_snapshot (fun _ => none) (fun _ => false)
    "https://www.amazon.com/dp/B000000001"
    "html_snapshots/product_B000000001.html" (none, [7]) (by decide) rfl
  exact ⟨h.1, h.2.1, h.2.2.2.1 _ _ "B000000001" (by decide) (by decide) rfl⟩

/-- Unfolding equation for `findAsinChars` on a non-empty list. -/
theorem findAsinChars_cons (c : Char) (cs : List Char) :
    findAsinChars (c :: cs) =
      match tryAsinAt (c :: cs) with
      | some a => some a
      | none => findAsinChars cs := rfl

/-- A position starting with `/dp/` followed by a well-formed ten-character
code makes the attempt succeed with exactly that code. -/
theorem tryAsinAt_of_code (a rest : List Char) (hlen : a.length = 10)
    (hall : a.all isAsinChar = true) :
    tryAsinAt (dpMarker ++ (a ++ rest)) = some a := by
  have hp : dpMarker.isPrefixOf (dpMarker ++ (a ++ rest)) = true :=
    List.isPrefixOf_iff_prefix.mpr ⟨a ++ rest, rfl⟩
  have hdrop : (dpMarker ++ (a ++ rest)).drop 4 = a ++ rest := rfl
  have htake : (a ++ rest).take 10 = a := by
    rw [show (10 : Nat) = a.length from hlen.symm, List.take_left]
  unfold tryAsinAt
  rw [hp, hdrop, htake]
  simp [hlen, hall]

/-- Completeness of the leftmost scan: when a well-formed `/dp/` code occurs
anywhere in the list, the scan finds one. -/
theorem findAsinChars_complete :
    ∀ (cs : List Char) (i : Nat) (a : List Char), a.length = 10 →
      a.all isAsinChar = true → (dpMarker ++ a) <+: cs.drop i →
      (findAsinChars cs).isSome = true := by
  intro cs
  induction cs with
  | nil =>
    intro i a hlen hall hp
    rw [List.drop_nil] at hp
    have hle := hp.length_le
    rw [List.length_append, hlen] at hle
    simp [dpMarker] at hle
  | cons c cs ih =>
    intro i a hlen hall hp
    cases i with
    | zero =>
      rw [List.drop_zero] at hp
      obtain ⟨t, ht⟩ := hp
      have htry : tryAsinAt (c :: cs) = some a := by
        rw [← ht, List.append_assoc]
        exact tryAsinAt_of_code a t hlen hall
      rw [findAsinChars_cons, htry]
      rfl
    | succ i =>
      have hp' : (dpMarker ++ a) <+: cs.drop i := by
        simpa using hp
      have hrec := ih i a hlen hall hp'
      rw [findAsinChars_cons]
      cases htry : tryAsinAt (c :: cs) with
      | some b => rfl
      | none => simpa using hrec

/-- Soundness of the scan: a returned code is a well-formed ten-character
code occurring right after `/dp/` somewhere in the list. -/
theorem findAsinChars_sound :
    ∀ (cs a : List Char), findAsinChars cs = some a →
      a.length = 10 ∧ a.all isAsinChar = true ∧
      ∃ i, (dpMarker ++ a) <+: cs.drop i := by
  intro cs
  induction cs with
  | nil => intro a h; simp [findAsinChars] at h
  | cons c cs ih =>
    intro a h
    rw [findAsinChars_cons] at h
    cases htry : tryAsinAt (c :: cs) with
    | some b =>
      rw [htry] at h
      obtain rfl : b = a := Option.some.inj h
      unfold tryAsinAt at htry
      split at htry
      · split at htry
        · next hpre hcond =>
          obtain rfl : ((c :: cs).drop 4).take 10 = b := Option.some.inj htry
          rw [Bool.and_eq_true] at hcond
          obtain ⟨hl, ha⟩ := hcond
          refine ⟨of_decide_eq_true hl, ha, 0, ?_⟩
          rw [List.drop_zero]
          obtain ⟨r, hr⟩ := List.isPrefixOf_iff_prefix.mp hpre
          have hdrop : (c :: cs).drop 4 = r := by
            rw [← hr]
            rfl
          rw [hdrop]
          obtain ⟨t, htt⟩ : r.take 10 <+: r := List.take_prefix 10 r
          exact ⟨t, by rw [List.append_assoc, htt, hr]⟩
        · simp at htry
      · simp at htry
    | none =>
      rw [htry] at h
      obtain ⟨h1, h2, i, h3⟩ := ih a h
      exact ⟨h1, h2, i + 1, by simpa using h3⟩

/-- C4 (counterexample): "abcdefghij" is a 10-character alphanumeric code
immediately preceded by "/dp/" in the URL, yet `extract_asin` ignores it
(the pattern accepts only uppercase A-Z and digits) and returns the on-page
form input's value instead of the URL code. -/
theorem extract_asin_lowercase_counterexample :
    "https://www.amazon.com/dp/" ++ "abcdefghij" =
        "https://www.amazon.com/dp/abcdefghij" ∧
    "abcdefghij".length = 10 ∧
    "abcdefghij".data.all Char.isAlphanum = true ∧
    extract_asin (some "B012345678") "https://www.amazon.com/dp/abcdefghij" =
      some "B012345678" := by
  exact ⟨rfl, by decide, by decide, by decide⟩

/-- C4 (amended): for every URL containing "/dp/" followed immediately by
ten characters from [A-Z0-9], `extract_asin` returns such a code taken from
the URL, regardless of the form-input value; only when the URL contains no
such code is the form-input's value used. -/
theorem extract_asin_url_precedence (input : Option String) (url : String) :
    (∀ (i : Nat) (a : List Char), a.length = 10 → a.all isAsinChar = true →
      (dpMarker ++ a) <+: url.data.drop i →
      extract_asin input url = extract_asin none url ∧
      ∃ b : List Char, extract_asin input url = some ⟨b⟩ ∧ b.length = 10 ∧
        b.all isAsinChar = true ∧ ∃ j, (dpMarker ++ b) <+: url.data.drop j) ∧
    ((∀ (i : Nat) (a : List Char), a.length = 10 → a.all isAsinChar = true →
        ¬ (dpMarker ++ a) <+: url.data.drop i) →
      extract_asin input url = input) := by
  constructor
  · intro i a hlen hall hp
    have hsome := findAsinChars_complete url.data i a hlen hall hp
    obtain ⟨b, hb⟩ := Option.isSome_iff_exists.mp hsome
    obtain ⟨h1, h2, j, h3⟩ := findAsinChars_sound url.data b hb
    refine ⟨by simp [extract_asin, findAsin, hb], b,
      by simp [extract_asin, findAsin, hb], h1, h2, j, h3⟩
  · intro hnone
    cases hb : findAsinChars url.data with
    | none => simp [extract_asin, findAsin, hb]
    | some b =>
      obtain ⟨h1, h2, j, h3⟩ := findAsinChars_sound url.data b hb
      exact absurd h3 (hnone j b h1 h2)

/-- C4 (witness): an uppercase URL code wins over the form input. -/
theorem extract_asin_url_precedence_witness :
    extract_asin (some "IGNORED") "https://www.amazon.com/dp/B012345678" =
      extract_asin none "https://www.amazon.com/dp/B012345678" ∧
    (extract_asin (some "IGNORED")
        "https://www.amazon.com/dp/B012345678").isSome = true := by
  have h := (extract_asin_url_precedence (some "IGNORED")
      "https://www.amazon.com/dp/B012345678").1 22 "B012345678".data
    (by decide) (by decide) ⟨[], by decide⟩
  obtain ⟨heq, b, hb, _⟩ := h
  exact ⟨heq, by rw [hb]; rfl⟩

/-! ## Normalization lemmas for `_clean_text` and its consumers -/

theorem noWsRun_tail {c : Char} {l : List Char} (h : noWsRun (c :: l) = true) :
    noWsRun l = true := by
  cases l with
  | nil => rfl
  | cons d l =>
    rw [noWsRun, Bool.and_eq_true] at h
    exact h.2

theorem noWsRun_append_left {l t : List Char} (h : noWsRun (l ++ t) = true) :
    noWsRun l = true := by
  induction l with
  | nil => rfl
  | cons c l ih =>
    cases l with
    | nil => rfl
    | cons d l =>
      rw [List.cons_append, List.cons_append] at h
      rw [noWsRun] at h ⊢
      rw [Bool.and_eq_true] at h ⊢
      exact ⟨h.1, ih (by rw [List.cons_append]; exact h.2)⟩

theorem noWsRun_suffix {l₁ l₂ : List Char} (hs : l₁ <:+ l₂)
    (h : noWsRun l₂ = true) : noWsRun l₁ = true := by
  obtain ⟨p, rfl⟩ := hs
  induction p with
  | nil => exact h
  | cons c p ih => exact ih (noWsRun_tail h)

theorem noWsRun_prefix {l₁ l₂ : List Char} (hp : l₁ <+: l₂)
    (h : noWsRun l₂ = true) : noWsRun l₁ = true := by
  obtain ⟨t, rfl⟩ := hp
  exact noWsRun_append_left h

theorem noWsRun_infix {l₁ l₂ : List Char} (hi : l₁ <:+: l₂)
    (h : noWsRun l₂ = true) : noWsRun l₁ = true := by
  obtain ⟨s, t, rfl⟩ := hi
  exact noWsRun_append_left (noWsRun_suffix ⟨s, by rw [List.append_assoc]⟩ h)

theorem noWsRun_of_all_not_ws {l : List Char}
    (h : ∀ c ∈ l, c.isWhitespace = false) : noWsRun l = true := by
  induction l with
  | nil => rfl
  | cons c l ih =>
    cases l with
    | nil => rfl
    | cons d l =>
      rw [noWsRun, Bool.and_eq_true]
      refine ⟨?_, ih (fun e he => h e (List.mem_cons_of_mem c he))⟩
      rw [wsPairOk, h c (List.mem_cons_self c (d :: l)), Bool.false_and]
      rfl

theorem noWsRun_append {l₁ l₂ : List Char} (h1 : noWsRun l₁ = true)
    (h2 : noWsRun l₂ = true)
    (hb : ∀ a b, l₁.getLast? = some a → l₂.head? = some b → wsPairOk a b = true) :
    noWsRun (l₁ ++ l₂) = true := by
  induction l₁ with
  | nil => exact h2
  | cons c l₁ ih =>
    cases l₁ with
    | nil =>
      cases l₂ with
      | nil => rfl
      | cons d l₂ =>
        rw [List.singleton_append, noWsRun, Bool.and_eq_true]
        exact ⟨hb c d rfl rfl, h2⟩
    | cons e l₁ =>
      rw [List.cons_append, List.cons_append, noWsRun, Bool.and_eq_true]
      rw [noWsRun, Bool.and_eq_true] at h1
      refine ⟨h1.1, ?_⟩
      rw [← List.cons_append]
      exact ih h1.2 (fun a b ha hbb => hb a b (by rw [List.getLast?_cons_cons]; exact ha) hbb)

/-- The head of a `dropWhile` result fails the predicate. -/
theorem head?_dropWhile_false (p : Char → Bool) :
    ∀ (l : List Char) (c : Char), (l.dropWhile p).head? = some c → p c = false := by
  intro l
  induction l with
  | nil => intro c h; simp at h
  | cons a l ih =>
    intro c h
    rw [List.dropWhile_cons] at h
    by_cases hpa : p a = true
    · rw [if_pos hpa] at h
      exact ih c h
    · rw [Bool.not_eq_true] at hpa
      rw [hpa] at h
      simp at h
      rw [h] at hpa
      exact hpa

theorem dropWhile_suffix (p : Char → Bool) (l : List Char) :
    l.dropWhile p <:+ l := by
  induction l with
  | nil => exact List.suffix_rfl
  | cons a l ih =>
    rw [List.dropWhile_cons]
    by_cases hpa : p a = true
    · rw [if_pos hpa]
      exact ih.trans (List.suffix_cons a l)
    · rw [Bool.not_eq_true] at hpa
      rw [hpa]
      exact List.suffix_rfl

/-- `str.strip()` of a mark-free string without whitespace runs is fully
normalised. -/
theorem stripEnds_cleaned (l : List Char)
    (hm : ∀ c ∈ l, c ≠ lrm ∧ c ≠ rlm) (hw : noWsRun l = true) :
    cleanedStr ⟨stripEnds l⟩ := by
  set l₁ := l.dropWhile Char.isWhitespace with hl₁
  have hsfx : l₁ <:+ l := dropWhile_suffix Char.isWhitespace l
  set r := (l₁.reverse.dropWhile Char.isWhitespace).reverse with hr
  have hre : stripEnds l = r := rfl
  have hpre : r <+: l₁ := by
    rw [← List.reverse_suffix, hr, List.reverse_reverse]
    exact dropWhile_suffix Char.isWhitespace l₁.reverse
  have hsub : ∀ c ∈ r, c ∈ l := fun c hc =>
    hsfx.sublist.subset (hpre.sublist.subset hc)
  refine ⟨?_, ?_, ?_, ?_⟩
  · rw [noMarksB, List.all_eq_true]
    intro c hc
    obtain ⟨h1, h2⟩ := hm c (hsub c (by simpa using hc))
    simp [h1, h2]
  · show noWsRun (stripEnds l) = true
    rw [hre]
    exact noWsRun_prefix hpre (noWsRun_suffix hsfx hw)
  · show headNotWs (stripEnds l) = true
    rw [hre]
    cases hcr : r with
    | nil => rfl
    | cons c r' =>
      rw [headNotWs]
      obtain ⟨t, ht⟩ := hpre
      have hhead : l₁.head? = some c := by
        rw [← ht, hcr, List.cons_append]
        rfl
      rw [head?_dropWhile_false Char.isWhitespace l c (hl₁ ▸ hhead)]
      rfl
  · show lastNotWs (stripEnds l) = true
    rw [hre, lastNotWs]
    rw [List.getLast?_eq_head?_reverse, hr, List.reverse_reverse]
    cases hcr : (l₁.reverse.dropWhile Char.isWhitespace).head? with
    | none => rfl
    | some c =>
      show (!c.isWhitespace) = true
      rw [head?_dropWhile_false Char.isWhitespace l₁.reverse c hcr]
      rfl

theorem mem_of_getLast?_eq {l : List Char} {a : Char} (h : l.getLast? = some a) :
    a ∈ l := by
  obtain ⟨hne, heq⟩ := List.mem_getLast?_eq_getLast (by rw [Option.mem_def]; exact h)
  rw [heq]
  exact List.getLast_mem hne

/-- Tokens produced by the whitespace split are non-empty and contain no
whitespace. -/
theorem splitWsAux_tokens :
    ∀ (cs acc : List Char), (∀ c ∈ acc, c.isWhitespace = false) →
      ∀ t ∈ splitWsAux acc cs, t ≠ [] ∧ ∀ c ∈ t, c.isWhitespace = false := by
  intro cs
  induction cs with
  | nil =>
    intro acc hacc t ht
    rw [splitWsAux] at ht
    by_cases he : acc.isEmpty = true
    · rw [if_pos he] at ht
      simp at ht
    · rw [if_neg he] at ht
      rw [List.mem_singleton] at ht
      subst ht
      refine ⟨?_, fun c hc => hacc c (List.mem_reverse.mp hc)⟩
      intro hnil
      rw [List.reverse_eq_nil_iff] at hnil
      exact he (List.isEmpty_iff.mpr hnil)
  | cons a cs ih =>
    intro acc hacc t ht
    rw [splitWsAux] at ht
    by_cases hws : a.isWhitespace = true
    · rw [if_pos hws] at ht
      by_cases he : acc.isEmpty = true
      · rw [if_pos he] at ht
        exact ih [] (by simp) t ht
      · rw [if_neg he] at ht
        rcases List.mem_cons.mp ht with h1 | h2
        · subst h1
          refine ⟨?_, fun c hc => hacc c (List.mem_reverse.mp hc)⟩
          intro hnil
          rw [List.reverse_eq_nil_iff] at hnil
          exact he (List.isEmpty_iff.mpr hnil)
        · exact ih [] (by simp) t h2
    · rw [if_neg hws] at ht
      rw [Bool.not_eq_true] at hws
      refine ih (a :: acc) ?_ t ht
      intro c hc
      rcases List.mem_cons.mp hc with h1 | h2
      · rw [h1]; exact hws
      · exact hacc c h2

/-- Characters of a token come from the accumulator or the input. -/
theorem splitWsAux_chars :
    ∀ (cs acc t : List Char), t ∈ splitWsAux acc cs →
      ∀ c ∈ t, c ∈ acc ∨ c ∈ cs := by
  intro cs
  induction cs with
  | nil =>
    intro acc t ht c hc
    rw [splitWsAux] at ht
    by_cases he : acc.isEmpty = true
    · rw [if_pos he] at ht
      simp at ht
    · rw [if_neg he] at ht
      rw [List.mem_singleton] at ht
      subst ht
      exact Or.inl (List.mem_reverse.mp hc)
  | cons a cs ih =>
    intro acc t ht c hc
    rw [splitWsAux] at ht
    by_cases hws : a.isWhitespace = true
    · rw [if_pos hws] at ht
      by_cases he : acc.isEmpty = true
      · rw [if_pos he] at ht
        rcases ih [] t ht c hc with h | h
        · simp at h
        · exact Or.inr (List.mem_cons_of_mem a h)
      · rw [if_neg he] at ht
        rcases List.mem_cons.mp ht with h1 | h2
        · subst h1
          exact Or.inl (List.mem_reverse.mp hc)
        · rcases ih [] t h2 c hc with h | h
          · simp at h
          · exact Or.inr (List.mem_cons_of_mem a h)
    · rw [if_neg hws] at ht
      rcases ih (a :: acc) t ht c hc with h | h
      · rcases List.mem_cons.mp h with h1 | h2
        · rw [h1]; exact Or.inr (List.mem_cons_self a cs)
        · exact Or.inl h2
      · exact Or.inr (List.mem_cons_of_mem a h)

theorem splitWs_tokens (cs : List Char) :
    ∀ t ∈ splitWs cs, t ≠ [] ∧ ∀ c ∈ t, c.isWhitespace = false :=
  splitWsAux_tokens cs [] (by simp)

/-- Characters of the joined string are spaces or token characters. -/
theorem joinSp_chars :
    ∀ (ts : List (List Char)) (c : Char), c ∈ joinSp ts →
      c = ' ' ∨ ∃ t ∈ ts, c ∈ t := by
  intro ts
  induction ts with
  | nil => intro c hc; simp [joinSp] at hc
  | cons t ts ih =>
    intro c hc
    cases ts with
    | nil =>
      exact Or.inr ⟨t, List.mem_cons_self t [], by simpa [joinSp] using hc⟩
    | cons u us =>
      have hc' : c ∈ t ++ ' ' :: joinSp (u :: us) := hc
      rcases List.mem_append.mp hc' with h1 | h2
      · exact Or.inr ⟨t, List.mem_cons_self t (u :: us), h1⟩
      · rcases List.mem_cons.mp h2 with h3 | h4
        · exact Or.inl h3
        · rcases ih c h4 with h5 | ⟨v, hv, hcv⟩
          · exact Or.inl h5
          · exact Or.inr ⟨v, List.mem_cons_of_mem t hv, hcv⟩

theorem joinSp_ne_nil :
    ∀ ts : List (List Char), ts ≠ [] → (∀ t ∈ ts, t ≠ []) → joinSp ts ≠ [] := by
  intro ts
  cases ts with
  | nil => intro h; exact absurd rfl h
  | cons t ts =>
    intro _ hall
    cases ts with
    | nil => simpa [joinSp] using hall t (List.mem_cons_self t [])
    | cons u us =>
      show t ++ ' ' :: joinSp (u :: us) ≠ []
      simp

/-- The joined string starts with a non-whitespace character. -/
theorem joinSp_head (ts : List (List Char))
    (htok : ∀ t ∈ ts, t ≠ [] ∧ ∀ c ∈ t, c.isWhitespace = false) :
    headNotWs (joinSp ts) = true := by
  cases ts with
  | nil => rfl
  | cons t ts =>
    obtain ⟨hne, hch⟩ := htok t (List.mem_cons_self t ts)
    cases t with
    | nil => exact absurd rfl hne
    | cons c t' =>
      have hcw := hch c (List.mem_cons_self c t')
      cases ts with
      | nil =>
        show headNotWs (c :: t') = true
        rw [headNotWs, hcw]
        rfl
      | cons u us =>
        show headNotWs ((c :: t') ++ ' ' :: joinSp (u :: us)) = true
        rw [List.cons_append, headNotWs, hcw]
        rfl

/-- The joined string ends with a non-whitespace character. -/
theorem joinSp_last (ts : List (List Char))
    (htok : ∀ t ∈ ts, t ≠ [] ∧ ∀ c ∈ t, c.isWhitespace = false) :
    lastNotWs (joinSp ts) = true := by
  induction ts with
  | nil => rfl
  | cons t ts ih =>
    cases ts with
    | nil =>
      obtain ⟨hne, hch⟩ := htok t (List.mem_cons_self t [])
      show lastNotWs t = true
      rw [lastNotWs]
      cases hl : t.getLast? with
      | none => rfl
      | some c =>
        show (!c.isWhitespace) = true
        rw [hch c (mem_of_getLast?_eq hl)]
        rfl
    | cons u us =>
      have htok' : ∀ x ∈ u :: us, x ≠ [] ∧ ∀ c ∈ x, c.isWhitespace = false :=
        fun x hx => htok x (List.mem_cons_of_mem t hx)
      have hju : joinSp (u :: us) ≠ [] :=
        joinSp_ne_nil (u :: us) (by simp) (fun x hx => (htok' x hx).1)
      show lastNotWs (t ++ ' ' :: joinSp (u :: us)) = true
      rw [lastNotWs, List.getLast?_append_of_ne_nil t (by simp)]
      cases hj : joinSp (u :: us) with
      | nil => exact absurd hj hju
      | cons d ds =>
        rw [List.getLast?_cons_cons]
        have ihh := ih htok'
        rw [hj, lastNotWs] at ihh
        exact ihh

/-- The joined string has no whitespace runs. -/
theorem joinSp_noWsRun (ts : List (List Char))
    (htok : ∀ t ∈ ts, t ≠ [] ∧ ∀ c ∈ t, c.isWhitespace = false) :
    noWsRun (joinSp ts) = true := by
  induction ts with
  | nil => rfl
  | cons t ts ih =>
    cases ts with
    | nil =>
      show noWsRun t = true
      exact noWsRun_of_all_not_ws (htok t (List.mem_cons_self t [])).2
    | cons u us =>
      have htok' : ∀ x ∈ u :: us, x ≠ [] ∧ ∀ c ∈ x, c.isWhitespace = false :=
        fun x hx => htok x (List.mem_cons_of_mem t hx)
      show noWsRun (t ++ ' ' :: joinSp (u :: us)) = true
      apply noWsRun_append
      · exact noWsRun_of_all_not_ws (htok t (List.mem_cons_self t (u :: us))).2
      · cases hj : joinSp (u :: us) with
        | nil => rfl
        | cons d ds =>
          rw [noWsRun, Bool.and_eq_true]
          constructor
          · have hh := joinSp_head (u :: us) htok'
            rw [hj, headNotWs, Bool.not_eq_true'] at hh
            rw [wsPairOk, hh, Bool.and_false]
            rfl
          · have ihh := ih htok'
            rw [hj] at ihh
            exact ihh
      · intro a b ha hb
        have hb' : b = ' ' := by
          rw [List.head?_cons] at hb
          exact (Option.some.inj hb).symm
        subst hb'
        have haw := (htok t (List.mem_cons_self t (u :: us))).2 a (mem_of_getLast?_eq ha)
        rw [wsPairOk, haw, Bool.false_and]
        rfl

/-- The full `_clean_text` normalisation yields a cleaned string. -/
theorem cleanChars_cleaned (cs : List Char) : cleanedStr ⟨cleanChars cs⟩ := by
  show cleanedStr ⟨stripEnds (joinSp (splitWs (removeMarks cs)))⟩
  have htok := splitWs_tokens (removeMarks cs)
  apply stripEnds_cleaned
  · intro c hc
    rcases joinSp_chars _ c hc with h1 | ⟨t, ht, hct⟩
    · subst h1
      exact ⟨by decide, by decide⟩
    · rcases splitWsAux_chars (removeMarks cs) [] t ht c hct with h | h
      · simp at h
      · have hpred := (List.mem_filter.mp h).2
        constructor
        · intro he
          rw [he] at hpred
          simp at hpred
        · intro he
          rw [he] at hpred
          simp at hpred
  · exact joinSp_noWsRun _ htok

theorem cleanRun_cleaned (s : String) : cleanedStr (cleanRun s) :=
  cleanChars_cleaned s.data

/-- The anchored label-stripping `re.sub` keeps a cleaned string cleaned. -/
theorem stripLabel_cleaned (labels : List String) (s : String) (h : cleanedStr s) :
    cleanedStr (stripLabel labels s) := by
  obtain ⟨hm, hw, hh, hl⟩ := h
  rw [stripLabel]
  cases hf : labels.find? (fun l => (lowerChars l.data).isPrefixOf (lowerChars s.data)) with
  | none => exact ⟨hm, hw, hh, hl⟩
  | some l =>
    set d := s.data.drop l.data.length with hd
    have hsfx : d <:+ s.data := List.drop_suffix _ _
    have hsfx2 : dropLabelTail d <:+ d := dropWhile_suffix _ d
    refine ⟨?_, ?_, ?_, ?_⟩
    · rw [noMarksB, List.all_eq_true]
      intro c hc
      have hcs : c ∈ s.data := hsfx.sublist.subset (hsfx2.sublist.subset hc)
      rw [noMarksB, List.all_eq_true] at hm
      exact hm c hcs
    · show noWsRun (dropLabelTail d) = true
      exact noWsRun_suffix hsfx2 (noWsRun_suffix hsfx hw)
    · show headNotWs (dropLabelTail d) = true
      cases hcr : dropLabelTail d with
      | nil => rfl
      | cons c r =>
        rw [headNotWs]
        have hpc := head?_dropWhile_false (fun c => c = ':' || c.isWhitespace) d c
          (by rw [show d.dropWhile (fun c => c = ':' || c.isWhitespace) = dropLabelTail d from rfl,
                hcr]; rfl)
        rw [Bool.or_eq_false_iff] at hpc
        rw [hpc.2]
        rfl
    · show lastNotWs (dropLabelTail d) = true
      cases hcr : dropLabelTail d with
      | nil => rfl
      | cons c r =>
        have hnn : dropLabelTail d ≠ [] := by rw [hcr]; simp
        have hsfx3 : dropLabelTail d <:+ s.data := hsfx2.trans hsfx
        obtain ⟨p, hp⟩ := hsfx3
        have hgl : (dropLabelTail d).getLast? = s.data.getLast? := by
          conv_rhs => rw [← hp]
          exact (List.getLast?_append_of_ne_nil p hnn).symm
        rw [lastNotWs, hcr] at *
        cases hval : (c :: r).getLast? with
        | none => rfl
        | some x =>
          show (!x.isWhitespace) = true
          rw [hval] at hgl
          rw [← hgl] at hl
          exact hl

/-- The head piece of a semicolon split is a prefix; the split is never
empty. -/
theorem splitOnChar_shape (sep : Char) :
    ∀ l : List Char, ∃ hd tl, splitOnChar sep l = hd :: tl ∧ hd <+: l := by
  intro l
  induction l with
  | nil => exact ⟨[], [], rfl, List.nil_prefix⟩
  | cons c l ih =>
    by_cases hc : c = sep
    · refine ⟨[], splitOnChar sep l, ?_, List.nil_prefix⟩
      rw [splitOnChar, if_pos hc]
    · obtain ⟨hd, tl, heq, hpre⟩ := ih
      obtain ⟨t, ht⟩ := hpre
      refine ⟨c :: hd, tl, ?_, ⟨t, by rw [List.cons_append, ht]⟩⟩
      rw [splitOnChar, if_neg hc, heq]

/-- Every semicolon-split piece is a contiguous part of the input. -/
theorem splitOnChar_mem_infix (sep : Char) :
    ∀ (l t : List Char), t ∈ splitOnChar sep l → t <:+: l := by
  intro l
  induction l with
  | nil =>
    intro t ht
    rw [splitOnChar, List.mem_singleton] at ht
    subst ht
    exact List.nil_infix
  | cons c l ih =>
    intro t ht
    by_cases hc : c = sep
    · rw [splitOnChar, if_pos hc] at ht
      rcases List.mem_cons.mp ht with h1 | h2
      · subst h1
        exact List.nil_infix
      · exact List.infix_cons (ih t h2)
    · rw [splitOnChar, if_neg hc] at ht
      obtain ⟨hd, tl, heq, hpre⟩ := splitOnChar_shape sep l
      rw [heq] at ht
      rcases List.mem_cons.mp ht with h1 | h2
      · subst h1
        obtain ⟨r, hr⟩ := hpre
        exact List.IsPrefix.isInfix ⟨r, by rw [List.cons_append, hr]⟩
      · exact List.infix_cons (ih t (heq ▸ List.mem_cons_of_mem hd h2))

/-- `str.strip()` of a mark-free, run-free string is fully normalised. -/
theorem trimStr_cleaned_of (s : String) (hm : noMarksB s = true)
    (hw : noWsRun s.data = true) : cleanedStr (trimStr s) := by
  show cleanedStr ⟨stripEnds s.data⟩
  apply stripEnds_cleaned
  · intro c hc
    rw [noMarksB, List.all_eq_true] at hm
    have hpc := hm c hc
    constructor
    · intro he
      rw [he] at hpc
      simp at hpc
    · intro he
      rw [he] at hpc
      simp at hpc
  · exact hw

/-- A semicolon-split piece of a cleaned string is mark-free and run-free. -/
theorem piece_cleaned (val : String) (hval : cleanedStr val) (piece : List Char)
    (hp : piece ∈ splitOnChar ';' val.data) :
    noMarksB (⟨piece⟩ : String) = true ∧ noWsRun piece = true := by
  obtain ⟨hm, hw, _, _⟩ := hval
  have hinf : piece <:+: val.data := splitOnChar_mem_infix ';' val.data piece hp
  constructor
  · rw [noMarksB, List.all_eq_true] at hm ⊢
    intro c hc
    exact hm c (hinf.sublist.subset hc)
  · exact noWsRun_infix hinf hw

/-- The semicolon-clause fold preserves field normalisation. -/
theorem fold_weight_cleaned (parts : List String) (init : Option String)
    (hinit : cleanedFieldOk init)
    (hparts : ∀ p ∈ parts, cleanedStr (trimStr p)) :
    cleanedFieldOk (parts.foldl
      (fun w p => if hasWeightUnit p then some (trimStr p) else w) init) := by
  induction parts generalizing init with
  | nil => exact hinit
  | cons p ps ih =>
    rw [List.foldl_cons]
    apply ih
    · by_cases hu : hasWeightUnit p = true
      · rw [if_pos hu]
        intro s hs
        exact Option.some.inj hs ▸ hparts p (List.mem_cons_self p ps)
      · rw [if_neg hu]
        exact hinit
    · intro q hq
      exact hparts q (List.mem_cons_of_mem p hq)

/-- The dimension branch preserves field normalisation. -/
theorem dimBranch_cleaned (st : DimsWeight) (text : String) (ht : cleanedStr text)
    (hd : cleanedFieldOk st.dims) (hw : cleanedFieldOk st.weight) :
    cleanedFieldOk (dimBranch st text).dims ∧
      cleanedFieldOk (dimBranch st text).weight := by
  by_cases hcond :
      (containsSub (lowerStr text) "dimension" || containsSub (lowerStr text) "size") = true
  case neg =>
    rw [dimBranch, if_neg hcond]
    exact ⟨hd, hw⟩
  case pos =>
    have hval : cleanedStr (stripLabel dimLabels text) := stripLabel_cleaned dimLabels text ht
    by_cases hsc : containsSub (stripLabel dimLabels text) ";" = true
    · obtain ⟨hdp, tlp, heqs, _⟩ := splitOnChar_shape ';' (stripLabel dimLabels text).data
      have hpieces : ∀ q : String,
          (∃ piece ∈ splitOnChar ';' (stripLabel dimLabels text).data, q = ⟨piece⟩) →
          cleanedStr (trimStr q) := by
        rintro q ⟨piece, hpc, rfl⟩
        obtain ⟨h1, h2⟩ := piece_cleaned _ hval piece hpc
        exact trimStr_cleaned_of _ h1 h2
      have heq : dimBranch st text =
          { dims := some (trimStr (((splitOnChar ';'
              (stripLabel dimLabels text).data).map
                (fun cs => (⟨cs⟩ : String))).headD ""))
            weight := ((splitOnChar ';' (stripLabel dimLabels text).data).map
                (fun cs => (⟨cs⟩ : String))).tail.foldl
              (fun w p => if hasWeightUnit p then some (trimStr p) else w) st.weight } := by
        rw [dimBranch, if_pos hcond]
        simp only [hsc, if_true]
      rw [heq]
      constructor
      · intro s hs
        rw [← Option.some.inj hs]
        rw [heqs, List.map_cons, List.headD_cons]
        exact hpieces ⟨hdp⟩ ⟨hdp, heqs ▸ List.mem_cons_self hdp tlp, rfl⟩
      · rw [heqs, List.map_cons, List.tail_cons]
        apply fold_weight_cleaned _ _ hw
        intro q hq
        obtain ⟨piece, hpc, rfl⟩ := List.mem_map.mp hq
        exact hpieces ⟨piece⟩ ⟨piece, heqs ▸ List.mem_cons_of_mem hdp hpc, rfl⟩
    · have heq : dimBranch st text = { st with dims := some (stripLabel dimLabels text) } := by
        rw [dimBranch, if_pos hcond]
        simp only [hsc]
        rw [if_neg (by simp)]
      rw [heq]
      constructor
      · intro s hs
        rw [← Option.some.inj hs]
        exact hval
      · exact hw

/-- The full row body preserves field normalisation. -/
theorem processRowText_cleaned (st : DimsWeight) (text : String) (ht : cleanedStr text)
    (hd : cleanedFieldOk st.dims) (hw : cleanedFieldOk st.weight) :
    cleanedFieldOk (processRowText st text).dims ∧
      cleanedFieldOk (processRowText st text).weight := by
  obtain ⟨hd1, hw1⟩ := dimBranch_cleaned st text ht hd hw
  rw [processRowText]
  by_cases hcond :
      (containsSub (lowerStr text) "weight" && falsyOpt (dimBranch st text).weight) = true
  · rw [if_pos hcond]
    refine ⟨hd1, ?_⟩
    intro s hs
    rw [← Option.some.inj hs]
    exact stripLabel_cleaned weightLabels text ht
  · rw [if_neg hcond]
    exact ⟨hd1, hw1⟩

theorem cleanText_cleaned {s t : String} (h : cleanText s = some t) : cleanedStr t := by
  rw [cleanText] at h
  by_cases hre : s = ""
  · rw [if_pos hre] at h
    simp at h
  · rw [if_neg hre] at h
    rw [← Option.some.inj h]
    exact cleanRun_cleaned s

theorem processRow_cleaned (st : DimsWeight) (raw : String)
    (hd : cleanedFieldOk st.dims) (hw : cleanedFieldOk st.weight) :
    cleanedFieldOk (processRow st raw).dims ∧
      cleanedFieldOk (processRow st raw).weight := by
  rw [processRow]
  cases hct : cleanText raw with
  | none => exact ⟨hd, hw⟩
  | some text => exact processRowText_cleaned st text (cleanText_cleaned hct) hd hw

/-- Both fields of the dims/weight extraction are normalised. -/
theorem extract_dims_cleaned (tables : List (List String)) :
    cleanedFieldOk (extract_dimensions_and_weight tables).dims ∧
      cleanedFieldOk (extract_dimensions_and_weight tables).weight := by
  have hrows : ∀ (rows : List String) (st : DimsWeight),
      cleanedFieldOk st.dims → cleanedFieldOk st.weight →
      cleanedFieldOk (rows.foldl processRow st).dims ∧
        cleanedFieldOk (rows.foldl processRow st).weight := by
    intro rows
    induction rows with
    | nil => intro st h1 h2; exact ⟨h1, h2⟩
    | cons r rs ih =>
      intro st h1 h2
      rw [List.foldl_cons]
      obtain ⟨h3, h4⟩ := processRow_cleaned st r h1 h2
      exact ih _ h3 h4
  have htabs : ∀ (ts : List (List String)) (st : DimsWeight),
      cleanedFieldOk st.dims → cleanedFieldOk st.weight →
      cleanedFieldOk (ts.foldl (fun st rows => rows.foldl processRow st) st).dims ∧
        cleanedFieldOk (ts.foldl (fun st rows => rows.foldl processRow st) st).weight := by
    intro ts
    induction ts with
    | nil => intro st h1 h2; exact ⟨h1, h2⟩
    | cons rows tss ih =>
      intro st h1 h2
      rw [List.foldl_cons]
      obtain ⟨h3, h4⟩ := hrows rows st h1 h2
      exact ih _ h3 h4
  exact htabs tables ⟨none, none⟩ (fun s hs => Option.noConfusion hs)
    (fun s hs => Option.noConfusion hs)

theorem extract_title_cleaned (t : Option String) : cleanedFieldOk (extract_title t) := by
  intro s hs
  cases t with
  | none => simp [extract_title] at hs
  | some raw => exact cleanText_cleaned (by simpa [extract_title] using hs)

theorem extract_price_cleaned (l : List (Option String)) :
    cleanedFieldOk (extract_price l) := by
  induction l with
  | nil => intro s hs; simp [extract_price] at hs
  | cons o rest ih =>
    cases o with
    | none =>
      intro s hs
      rw [extract_price] at hs
      exact ih s hs
    | some t =>
      intro s hs
      rw [extract_price] at hs
      by_cases hte : t = ""
      · rw [if_pos hte] at hs
        exact ih s hs
      · rw [if_neg hte] at hs
        rw [← Option.some.inj hs]
        exact cleanRun_cleaned t

theorem extract_rating_cleaned (r1 r2 : Option String) :
    cleanedFieldOk (extract_rating r1 r2) := by
  intro s hs
  cases r1 with
  | some t => exact cleanText_cleaned (by simpa [extract_rating] using hs)
  | none =>
    cases r2 with
    | none => simp [extract_rating] at hs
    | some t => exact cleanText_cleaned (by simpa [extract_rating] using hs)

theorem extract_review_count_cleaned (t : Option String) :
    cleanedFieldOk (extract_review_count t) := by
  intro s hs
  cases t with
  | none => simp [extract_review_count] at hs
  | some raw => exact cleanText_cleaned (by simpa [extract_review_count] using hs)

theorem extract_bullets_cleaned (ts : List String) :
    ∀ s ∈ extract_bullets ts, cleanedStr s := by
  intro s hs
  rw [extract_bullets] at hs
  obtain ⟨t, _, rfl⟩ := List.mem_map.mp hs
  exact cleanRun_cleaned t

theorem extract_breadcrumbs_cleaned (ts : List String) :
    ∀ s ∈ extract_breadcrumbs ts, cleanedStr s := by
  intro s hs
  rw [extract_breadcrumbs] at hs
  obtain ⟨t, _, rfl⟩ := List.mem_map.mp hs
  exact cleanRun_cleaned t

/-- In a run-free list, the characters meeting at a join point are not both
whitespace. -/
theorem noWsRun_pair_at_join :
    ∀ (xs : List Char) (w d : Char) (ys : List Char), xs.getLast? = some w →
      noWsRun (xs ++ d :: ys) = true → wsPairOk w d = true := by
  intro xs
  induction xs with
  | nil => intro w d ys h; simp at h
  | cons a xs ih =>
    intro w d ys hlast hw
    cases xs with
    | nil =>
      rw [List.getLast?_singleton] at hlast
      obtain rfl : a = w := Option.some.inj hlast
      rw [List.singleton_append, noWsRun, Bool.and_eq_true] at hw
      exact hw.1
    | cons b xs' =>
      rw [List.getLast?_cons_cons] at hlast
      exact ih w d ys hlast (noWsRun_tail hw)

/-- Deleting occurrences of a pattern only keeps characters of the input. -/
theorem replaceDel_subset (p : List Char) :
    ∀ (n : Nat) (l : List Char), l.length ≤ n →
      ∀ c ∈ replaceAllChars p [] l, c ∈ l := by
  intro n
  induction n with
  | zero =>
    intro l hlen c hc
    obtain rfl : l = [] := List.length_eq_zero.mp (Nat.le_zero.mp hlen)
    rw [replaceAllChars] at hc
    exact absurd hc (by simp)
  | succ n ih =>
    intro l hlen c hc
    cases l with
    | nil =>
      rw [replaceAllChars] at hc
      exact absurd hc (by simp)
    | cons a cs =>
      rw [replaceAllChars] at hc
      rw [List.length_cons] at hlen
      by_cases hm : (p.isPrefixOf (a :: cs) && !p.isEmpty) = true
      · rw [if_pos hm, List.nil_append] at hc
        have hlen2 : (cs.drop (p.length - 1)).length ≤ n := by
          rw [List.length_drop]
          omega
        exact List.mem_cons_of_mem a
          (List.drop_subset _ _ (ih (cs.drop (p.length - 1)) hlen2 c hc))
      · rw [if_neg hm] at hc
        rcases List.mem_cons.mp hc with h1 | h2
        · rw [h1]
          exact List.mem_cons_self a cs
        · exact List.mem_cons_of_mem a (ih cs (by omega) c h2)

/-- Deleting occurrences of a pattern whose first or last character is a
space preserves freedom from whitespace runs, and keeps a non-whitespace
head: a pattern starting with a space cannot match at a non-whitespace
head, and after a pattern ending with a space the next input character is
non-whitespace (the input has no whitespace runs). -/
theorem replaceDel_preserves (p : List Char)
    (hends : p.head? = some ' ' ∨ p.getLast? = some ' ') :
    ∀ (n : Nat) (l : List Char), l.length ≤ n → noWsRun l = true →
      noWsRun (replaceAllChars p [] l) = true ∧
      (headNotWs l = true → headNotWs (replaceAllChars p [] l) = true) := by
  have hne : p ≠ [] := by
    rcases hends with h | h <;> (intro hnil; rw [hnil] at h; simp at h)
  intro n
  induction n with
  | zero =>
    intro l hlen hw
    obtain rfl : l = [] := List.length_eq_zero.mp (Nat.le_zero.mp hlen)
    have h0 : replaceAllChars p [] ([] : List Char) = [] := by rw [replaceAllChars]
    rw [h0]
    exact ⟨rfl, fun _ => rfl⟩
  | succ n ih =>
    intro l hlen hw
    cases l with
    | nil =>
      have h0 : replaceAllChars p [] ([] : List Char) = [] := by rw [replaceAllChars]
      rw [h0]
      exact ⟨rfl, fun _ => rfl⟩
    | cons c cs =>
      rw [List.length_cons] at hlen
      rw [replaceAllChars]
      by_cases hm : (p.isPrefixOf (c :: cs) && !p.isEmpty) = true
      · rw [if_pos hm, List.nil_append]
        rw [Bool.and_eq_true] at hm
        obtain ⟨r, hr⟩ := List.isPrefixOf_iff_prefix.mp hm.1
        have hrest : cs.drop (p.length - 1) = r := by
          cases p with
          | nil => exact absurd rfl hne
          | cons ph pt =>
            have h1 : ((ph :: pt) ++ r).drop (ph :: pt).length = r := List.drop_left _ _
            rw [hr] at h1
            rw [List.length_cons, List.drop_succ_cons] at h1
            simpa using h1
        have hwr : noWsRun r = true := noWsRun_suffix ⟨p, hr⟩ hw
        have hlenr : r.length ≤ n := by
          have hlr := congrArg List.length hr
          rw [List.length_append, List.length_cons] at hlr
          have hp1 : 1 ≤ p.length := by
            cases p
            · exact absurd rfl hne
            · rw [List.length_cons]; omega
          omega
        rw [hrest]
        obtain ⟨ih1, ih2⟩ := ih r hlenr hwr
        refine ⟨ih1, ?_⟩
        intro hhead
        rcases hends with hstart | hlast
        · cases p with
          | nil => exact absurd rfl hne
          | cons ph pt =>
            rw [List.head?_cons] at hstart
            obtain rfl : ph = ' ' := Option.some.inj hstart
            have hc : c = ' ' := by
              rw [List.cons_append] at hr
              exact ((List.cons.inj hr).1).symm
            rw [headNotWs, hc] at hhead
            exact absurd hhead (by decide)
        · apply ih2
          cases hr2 : r with
          | nil => rfl
          | cons d ds =>
            rw [headNotWs]
            have hpair : wsPairOk ' ' d = true := by
              apply noWsRun_pair_at_join p ' ' d ds hlast
              rw [hr2] at hr
              rw [hr]
              exact hw
            have hsw : (' ').isWhitespace = true := by decide
            rw [wsPairOk, hsw, Bool.true_and, Bool.not_eq_true'] at hpair
            rw [hpair]
            rfl
      · rw [if_neg hm]
        have hwcs : noWsRun cs = true := noWsRun_tail hw
        obtain ⟨ih1, ih2⟩ := ih cs (by omega) hwcs
        constructor
        · cases hf : replaceAllChars p [] cs with
          | nil => rfl
          | cons d ds =>
            rw [noWsRun, Bool.and_eq_true]
            rw [hf] at ih1
            refine ⟨?_, ih1⟩
            by_cases hcw : c.isWhitespace = true
            · have hhcs : headNotWs cs = true := by
                cases cs with
                | nil => rfl
                | cons e es =>
                  rw [headNotWs]
                  rw [noWsRun, Bool.and_eq_true] at hw
                  have hp := hw.1
                  rw [wsPairOk, hcw, Bool.true_and] at hp
                  exact hp
              have hfh := ih2 hhcs
              rw [hf, headNotWs, Bool.not_eq_true'] at hfh
              rw [wsPairOk, hfh, Bool.and_false]
              rfl
            · rw [Bool.not_eq_true] at hcw
              rw [wsPairOk, hcw, Bool.false_and]
              rfl
        · intro hhead
          rw [headNotWs] at hhead ⊢
          exact hhead

/-- The anchored `^Brand:\s*` strip keeps a suffix of its input. -/
theorem stripBrandLabel_suffix (s : String) : (stripBrandLabel s).data <:+ s.data := by
  rw [stripBrandLabel]
  by_cases hp : (lowerChars "Brand:".data).isPrefixOf (lowerChars s.data) = true
  · rw [if_pos hp]
    exact (dropWhile_suffix _ _).trans (List.drop_suffix 6 s.data)
  · rw [if_neg hp]

/-- `_clean_text` yields `None` exactly on empty (falsy) input. -/
theorem cleanText_eq_none (s : String) : cleanText s = none ↔ s = "" := by
  rw [cleanText]
  by_cases h : s = ""
  · rw [if_pos h]
    simp [h]
  · rw [if_neg h]
    simp [h]

/-- `extract_brand` only produces normalised values: the cleaner's output is
touched only by the anchored label strip (a suffix), the two pattern
deletions, and a final strip, none of which can introduce marks, whitespace
runs, or end whitespace. -/
theorem extract_brand_cleaned (b o : Option String)
    (h : extract_brand b = Except.ok o) : cleanedFieldOk o := by
  intro s hs
  cases b with
  | none =>
    have h2 : Except.ok (none : Option String) = Except.ok o := h
    injection h2 with h1
    rw [← h1] at hs
    exact Option.noConfusion hs
  | some raw =>
    rw [extract_brand] at h
    cases hct : cleanText raw with
    | none =>
      rw [hct] at h
      exact Except.noConfusion h
    | some t =>
      rw [hct] at h
      have h2 : Except.ok (some (⟨stripEnds (replaceAllChars " Store".data []
          (replaceAllChars "Visit the ".data [] (stripBrandLabel t).data))⟩ : String)) =
          Except.ok o := h
      injection h2 with h1
      rw [← h1] at hs
      obtain rfl := Option.some.inj hs
      obtain ⟨hm, hw, _, _⟩ := cleanText_cleaned hct
      have hsfx1 : (stripBrandLabel t).data <:+ t.data := stripBrandLabel_suffix t
      have hw1 : noWsRun (stripBrandLabel t).data = true := noWsRun_suffix hsfx1 hw
      have hwA : noWsRun (replaceAllChars "Visit the ".data []
          (stripBrandLabel t).data) = true :=
        (replaceDel_preserves "Visit the ".data (Or.inr (by decide))
          (stripBrandLabel t).data.length (stripBrandLabel t).data le_rfl hw1).1
      have hwB : noWsRun (replaceAllChars " Store".data []
          (replaceAllChars "Visit the ".data [] (stripBrandLabel t).data)) = true :=
        (replaceDel_preserves " Store".data (Or.inl (by decide)) _ _ le_rfl hwA).1
      apply stripEnds_cleaned
      · intro c hc
        have hc1 := replaceDel_subset " Store".data _ _ le_rfl c hc
        have hc2 := replaceDel_subset "Visit the ".data _ _ le_rfl c hc1
        have hc3 : c ∈ t.data := hsfx1.sublist.subset hc2
        rw [noMarksB, List.all_eq_true] at hm
        have hmc := hm c hc3
        constructor
        · intro he
          rw [he] at hmc
          simp at hmc
        · intro he
          rw [he] at hmc
          simp at hmc
      · exact hwB

/-- `extract_title` is absent exactly when the element is absent or its raw
text is empty. -/
theorem extract_title_eq_none (t : Option String) :
    extract_title t = none ↔ t = none ∨ t = some "" := by
  cases t with
  | none => simp [extract_title]
  | some raw => simp [extract_title, cleanText_eq_none]

/-- `extract_review_count` is absent exactly when the element is absent or
its raw text is empty. -/
theorem extract_review_count_eq_none (t : Option String) :
    extract_review_count t = none ↔ t = none ∨ t = some "" := by
  cases t with
  | none => simp [extract_review_count]
  | some raw => simp [extract_review_count, cleanText_eq_none]

/-- `extract_rating` is absent exactly when the chosen element of the
two-selector chain is absent or has empty raw text. -/
theorem extract_rating_eq_none (r1 r2 : Option String) :
    extract_rating r1 r2 = none ↔
      r1 = some "" ∨ (r1 = none ∧ (r2 = none ∨ r2 = some "")) := by
  cases r1 with
  | some t => simp [extract_rating, cleanText_eq_none]
  | none =>
    cases r2 with
    | none => simp [extract_rating]
    | some t => simp [extract_rating, cleanText_eq_none]

/-- `extract_price` is absent exactly when every selector in the chain finds
no element or an element with empty text. -/
theorem extract_price_eq_none (l : List (Option String)) :
    extract_price l = none ↔ ∀ o ∈ l, o = none ∨ o = some "" := by
  induction l with
  | nil => simp [extract_price]
  | cons o rest ih =>
    cases o with
    | none =>
      rw [extract_price, ih, List.forall_mem_cons]
      simp
    | some t =>
      rw [extract_price]
      by_cases hte : t = ""
      · subst hte
        rw [if_pos rfl, ih, List.forall_mem_cons]
        simp
      · rw [if_neg hte, List.forall_mem_cons]
        simp [hte]

/-- C10 (counterexample): a record produced by `extract_product_details` can
carry an empty-string title (whitespace-only title element) and an
un-normalised ASIN taken raw from the form input, so the claim as stated is
false. -/
theorem record_fields_empty_counterexample : ¬ claimC10 := by
  intro h
  have hpe : extract_product_details page0 url0 = Except.ok prod0 := rfl
  obtain ⟨ht, _⟩ := h page0 url0 prod0 hpe
  rcases ht with h0 | ⟨s, hs, hne, _⟩
  · exact absurd h0 (by decide)
  · exact hne (Option.some.inj (show some "" = some s from hs)).symm

/-- C10 (amended): every text field of a produced record that the code
derives from element text — title, brand, price, rating, review_count,
dimensions, weight, and every bullet and breadcrumb entry — is either
absent or a (possibly empty) string containing no U+200E/U+200F marks, no
leading or trailing whitespace, and no two adjacent whitespace characters.
An element whose non-empty text cleans to nothing yields the empty string,
never an absent field: title, review_count and rating are absent exactly
when the relevant chain elements are absent or have empty raw text, and
price is absent exactly when every selector slot is absent or has empty
text.  The url, the image src, and — when the URL carries no code — the
form-input asin, are passed through verbatim. -/
theorem product_fields_normalised (page : DetailPage) (url : String) (r : Product)
    (h : extract_product_details page url = Except.ok r) :
    (cleanedFieldOk r.title ∧ cleanedFieldOk r.brand ∧ cleanedFieldOk r.price ∧
      cleanedFieldOk r.rating ∧ cleanedFieldOk r.review_count ∧
      cleanedFieldOk r.dimensions ∧ cleanedFieldOk r.weight ∧
      (∀ s ∈ r.bullet_features, cleanedStr s) ∧
      (∀ s ∈ r.breadcrumbs, cleanedStr s)) ∧
    (r.title = none ↔ page.titleText = none ∨ page.titleText = some "") ∧
    (r.review_count = none ↔ page.reviewText = none ∨ page.reviewText = some "") ∧
    (r.rating = none ↔ page.ratingText1 = some "" ∨
      (page.ratingText1 = none ∧
        (page.ratingText2 = none ∨ page.ratingText2 = some ""))) ∧
    (r.price = none ↔ ∀ o ∈ page.priceTexts, o = none ∨ o = some "") ∧
    r.url = url ∧ r.image_url = page.imageSrc ∧
    (findAsin url = none → r.asin = page.asinInput) := by
  rw [extract_product_details] at h
  cases hbr : extract_brand page.bylineText with
  | error e =>
    rw [hbr] at h
    simp at h
  | ok brand =>
    rw [hbr] at h
    injection h with hr
    subst hr
    refine ⟨⟨extract_title_cleaned _, extract_brand_cleaned _ _ hbr,
      extract_price_cleaned _, extract_rating_cleaned _ _,
      extract_review_count_cleaned _, (extract_dims_cleaned _).1,
      (extract_dims_cleaned _).2, extract_bullets_cleaned _,
      extract_breadcrumbs_cleaned _⟩,
      extract_title_eq_none _, extract_review_count_eq_none _,
      extract_rating_eq_none _ _, extract_price_eq_none _, rfl, rfl, ?_⟩
    intro hfa
    rw [extract_asin, hfa]

/-- C10 (witness): the record for `page1` (title text " a‎  b ") has the
normalised title "a b", and its url is the one the extractor was given. -/
theorem product_fields_normalised_witness :
    (noMarksB "a b" = true ∧ noWsRun "a b".data = true ∧
      headNotWs "a b".data = true ∧ lastNotWs "a b".data = true) ∧
    prod1.url = url0 := by
  have h := product_fields_normalised page1 url0 prod1 rfl
  exact ⟨h.1.1 "a b" rfl, h.2.2.2.2.2.1⟩

end Scrape
